import Mathlib

/-!
Verification of the defunctionalized-api repository (src/src/index.ts).

The repository records a fluent call chain as a list of steps
(`QueryStep = { method, args }`) via a Proxy-based builder (`queryBuilder`,
lines 56-74), and replays such a list against a concrete object graph with
`evaluateQuerySteps` (lines 146-152).  The concrete object graph is the
trio `RootQueryEvaluator` / `PersonQueryEvaluator` / `PeopleQueryEvaluator`
(lines 96-143) over the module-level `people` array (lines 89-94).

Embedding conventions:
* JavaScript runtime values flowing through an evaluation are modelled by
  the inductive `Dyn`; step arguments (JSON-serializable values) by `Arg`.
* A thrown JS error is modelled by `Except` with `EvalError`:
  `operationFailed` models the `throw new Error(...)` calls inside the
  evaluator methods, and `methodNotFound` models the TypeError raised by
  `result[step.method](...)` when the looked-up member is not a callable
  operation.  The model's method table covers the operations declared on
  the evaluator classes; members inherited from Object.prototype are
  outside the model.
* The module-level `people` binding is passed explicitly (`db`) so that
  theorems can quantify over the backing data; the source constant is the
  definition `people` below.
* JS coercions touched by the code (`===` on strings, `>` between a number
  field and an argument, array indexing) are modelled by `jsStrictEqStr`,
  `jsGt` and `jsIndex`; integer arithmetic stands in for JS numbers, which
  is exact on the integer literals the repository uses.
-/

/-- One recorded operation invocation, `type QueryStep = { method: string; args: any[] }`
(line 33).  Arguments are the plain JSON-serializable values the chain passes. -/
inductive Arg
  | str (s : String)
  | num (n : Int)
  | bool (b : Bool)
deriving DecidableEq, Repr

structure QueryStep where
  method : String
  args : List Arg
deriving DecidableEq, Repr

/-- A backing record, `type Person = { id: string; name: string; age: number }` (line 88). -/
structure Person where
  id : String
  name : String
  age : Int
deriving DecidableEq, Repr

/-- The module-level backing data, `const people` (lines 89-94). -/
def people : List Person :=
  [⟨"1", "joe", 10⟩, ⟨"2", "joe", 11⟩, ⟨"3", "bob", 12⟩, ⟨"4", "jeff", 15⟩]

/-- Runtime values that flow through `evaluateQuerySteps`: the three evaluator
classes and the plain values their terminal operations return. -/
inductive Dyn
  | root
  | person (p : Person)
  | people (ps : List Person)
  | str (s : String)
  | num (n : Int)
  | bool (b : Bool)
  | strList (l : List String)
  | numList (l : List Int)
  | boolList (l : List Bool)
deriving DecidableEq, Repr

/-- Errors an evaluation can raise: `operationFailed` models the
`throw new Error(msg)` statements in the evaluator methods (lines 99, 140);
`methodNotFound` models the TypeError from calling a missing member in
`result[step.method](...)` (line 149). -/
inductive EvalError
  | methodNotFound (method : String)
  | operationFailed (message : String)
deriving DecidableEq, Repr

/-- JS string coercion used when an argument is spliced into an error
message (`"Could not find person: " + id`); a missing argument is
`undefined`. -/
def argDisplay : Option Arg → String
  | some (.str s) => s
  | some (.num n) => toString n
  | some (.bool b) => cond b "true" "false"
  | none => "undefined"

/-- Models JS strict equality `s === a` between a string field and a step
argument (only a string argument with the same characters compares equal). -/
def jsStrictEqStr (s : String) (a : Option Arg) : Bool :=
  match a with
  | some (.str t) => s == t
  | _ => false

/-- Models the JS comparison `n > a` between a numeric field and a step
argument: numbers compare directly, booleans coerce to 0/1, integer-literal
strings coerce to their value, and anything else (NaN cases) compares false. -/
def jsGt (n : Int) (a : Option Arg) : Bool :=
  match a with
  | some (.num m) => n > m
  | some (.bool b) => n > (cond b 1 0)
  | some (.str s) =>
    match s.toInt? with
    | some m => n > m
    | none => false
  | none => false

/-- Models JS array indexing `ps[a]`: an in-range non-negative number yields
the element, a canonical numeric string aliases the same index, everything
else yields `undefined` (`none`). -/
def jsIndex (ps : List Person) (a : Option Arg) : Option Person :=
  match a with
  | some (.num n) => if n < 0 then none else ps[n.toNat]?
  | some (.str s) =>
    match s.toNat? with
    | some k => if toString k = s then ps[k]? else none
    | none => none
  | _ => none

/-- Source `RootQueryEvaluator.getPerson` (lines 97-101): `people.find(...)`, throwing
when no person matches, else wrapping the hit in a `PersonQueryEvaluator`. -/
def RootQueryEvaluator.getPerson (db : List Person) (id : Option Arg) : Except EvalError Dyn :=
  match db.find? (fun person => jsStrictEqStr person.id id) with
  | some person => .ok (.person person)
  | none => .error (.operationFailed ("Could not find person: " ++ argDisplay id))

/-- Source `RootQueryEvaluator.getPeopleNamed` (lines 102-105): `people.filter(...)`
wrapped in a `PeopleQueryEvaluator`. -/
def RootQueryEvaluator.getPeopleNamed (db : List Person) (name : Option Arg) : Dyn :=
  .people (db.filter fun person => jsStrictEqStr person.name name)

/-- Source `PersonQueryEvaluator.getName` (lines 110-112). -/
def PersonQueryEvaluator.getName (p : Person) : String := p.name

/-- Source `PersonQueryEvaluator.getAge` (lines 113-115). -/
def PersonQueryEvaluator.getAge (p : Person) : Int := p.age

/-- Source `PersonQueryEvaluator.isOlderThan` (lines 116-118): `this.person.age > age`. -/
def PersonQueryEvaluator.isOlderThan (p : Person) (age : Option Arg) : Bool :=
  jsGt p.age age

/-- Source `PeopleQueryEvaluator.mapGetName` (lines 124-126). -/
def PeopleQueryEvaluator.mapGetName (ps : List Person) : List String :=
  ps.map fun person => person.name

/-- Source `PeopleQueryEvaluator.mapGetAge` (lines 127-129). -/
def PeopleQueryEvaluator.mapGetAge (ps : List Person) : List Int :=
  ps.map fun person => person.age

/-- Source `PeopleQueryEvaluator.mapIsOlderThan` (lines 130-132). -/
def PeopleQueryEvaluator.mapIsOlderThan (ps : List Person) (age : Option Arg) : List Bool :=
  ps.map fun person => jsGt person.age age

/-- Source `PeopleQueryEvaluator.filterIsOlderThan` (lines 133-137). -/
def PeopleQueryEvaluator.filterIsOlderThan (ps : List Person) (age : Option Arg) : List Person :=
  ps.filter fun person => jsGt person.age age

/-- Source `PeopleQueryEvaluator.atIndex` (lines 138-142): `this.persons[index]`,
throwing when the access yields `undefined`. -/
def PeopleQueryEvaluator.atIndex (ps : List Person) (index : Option Arg) : Except EvalError Dyn :=
  match jsIndex ps index with
  | some person => .ok (.person person)
  | none => .error (.operationFailed ("No person at index: " ++ argDisplay index))

/-- Which operations the current evaluation target exposes: exactly the
methods declared on the evaluator class the `Dyn` value models (lines
96-143); plain terminal values expose none. -/
def hasMethod (evaluator : Dyn) (method : String) : Bool :=
  match evaluator with
  | .root => method == "getPerson" || method == "getPeopleNamed"
  | .person _ => method == "getName" || method == "getAge" || method == "isOlderThan"
  | .people _ =>
    method == "mapGetName" || method == "mapGetAge" || method == "mapIsOlderThan" ||
      method == "filterIsOlderThan" || method == "atIndex"
  | _ => false

/-- The dynamic dispatch `result[step.method](...step.args)` of line 149:
look the method up on the current value and invoke the corresponding
evaluator-class method with the step's arguments (a missing i-th parameter
is `undefined`, i.e. `args[i]? = none`). -/
def invoke (db : List Person) (evaluator : Dyn) (method : String) (args : List Arg) :
    Except EvalError Dyn :=
  match evaluator with
  | .root =>
    if method = "getPerson" then RootQueryEvaluator.getPerson db args[0]?
    else if method = "getPeopleNamed" then .ok (RootQueryEvaluator.getPeopleNamed db args[0]?)
    else .error (.methodNotFound method)
  | .person p =>
    if method = "getName" then .ok (.str (PersonQueryEvaluator.getName p))
    else if method = "getAge" then .ok (.num (PersonQueryEvaluator.getAge p))
    else if method = "isOlderThan" then .ok (.bool (PersonQueryEvaluator.isOlderThan p args[0]?))
    else .error (.methodNotFound method)
  | .people ps =>
    if method = "mapGetName" then .ok (.strList (PeopleQueryEvaluator.mapGetName ps))
    else if method = "mapGetAge" then .ok (.numList (PeopleQueryEvaluator.mapGetAge ps))
    else if method = "mapIsOlderThan" then
      .ok (.boolList (PeopleQueryEvaluator.mapIsOlderThan ps args[0]?))
    else if method = "filterIsOlderThan" then
      .ok (.people (PeopleQueryEvaluator.filterIsOlderThan ps args[0]?))
    else if method = "atIndex" then PeopleQueryEvaluator.atIndex ps args[0]?
    else .error (.methodNotFound method)
  | _ => .error (.methodNotFound method)

/-- Source `evaluateQuerySteps` (lines 146-152): start with `result = evaluator`,
then for each step in order replace `result` by
`result[step.method](...step.args)`; a thrown error aborts the loop and
propagates. -/
def evaluateQuerySteps (db : List Person) (evaluator : Dyn) : List QueryStep → Except EvalError Dyn
  | [] => .ok evaluator
  | step :: rest =>
    match invoke db evaluator step.method step.args with
    | .ok next => evaluateQuerySteps db next rest
    | .error e => .error e

/-- What a property access on the builder Proxy returns (lines 62-70):
either the accumulated steps themselves, or a callable that appends a step. -/
inductive GetResult
  | steps (s : List QueryStep)
  | callable (f : List Arg → List QueryStep)

/-- The Proxy `get` handler of `queryBuilder` (lines 62-70): the reserved
name returns the accumulated steps; every other property yields a function
that returns a new builder whose steps are `[...steps, {method: prop, args}]`. -/
def builderGet (steps : List QueryStep) (prop : String) : GetResult :=
  if prop = "$steps" then .steps steps
  else .callable fun args => steps ++ [{ method := prop, args := args }]

/-- Invoking an operation on a builder: access the property and call the
returned value with the arguments.  Calling the steps array itself (the
reserved property) is a JS type error, modelled as `none`. -/
def callOp (steps : List QueryStep) (method : String) (args : List Arg) :
    Option (List QueryStep) :=
  match builderGet steps method with
  | .callable f => some (f args)
  | .steps _ => none

/-- One operation invocation made through the builder: a method name and
the argument list passed at the call site. -/
structure OpCall where
  method : String
  args : List Arg
deriving DecidableEq, Repr

/-- Chaining a sequence of operation invocations through the builder,
starting from a builder holding `steps`. -/
def chainBuilder (steps : List QueryStep) : List OpCall → Option (List QueryStep)
  | [] => some steps
  | op :: rest =>
    match callOp steps op.method op.args with
    | some next => chainBuilder next rest
    | none => none

theorem evaluateQuerySteps_nil (db : List Person) (d : Dyn) :
    evaluateQuerySteps db d [] = .ok d := rfl

theorem evaluateQuerySteps_cons (db : List Person) (d : Dyn) (step : QueryStep)
    (rest : List QueryStep) :
    evaluateQuerySteps db d (step :: rest) =
      match invoke db d step.method step.args with
      | .ok next => evaluateQuerySteps db next rest
      | .error e => .error e := rfl

theorem evaluateQuerySteps_singleton (db : List Person) (d : Dyn) (m : String) (a : List Arg) :
    evaluateQuerySteps db d [{ method := m, args := a }] = invoke db d m a := by
  rw [evaluateQuerySteps_cons]
  cases invoke db d m a <;> rfl

theorem evaluateQuerySteps_append (db : List Person) (d : Dyn) (xs ys : List QueryStep) :
    evaluateQuerySteps db d (xs ++ ys) =
      match evaluateQuerySteps db d xs with
      | .ok r => evaluateQuerySteps db r ys
      | .error e => .error e := by
  induction xs generalizing d with
  | nil => rfl
  | cons s rest ih =>
    rw [List.cons_append, evaluateQuerySteps_cons, evaluateQuerySteps_cons]
    cases invoke db d s.method s.args with
    | ok next => exact ih next
    | error e => rfl

theorem callOp_eq (steps : List QueryStep) (method : String) (args : List Arg)
    (h : method ≠ "$steps") :
    callOp steps method args = some (steps ++ [{ method := method, args := args }]) := by
  simp only [callOp, builderGet, if_neg h]

theorem chainBuilder_eq (ops : List OpCall) :
    ∀ steps : List QueryStep, (∀ op ∈ ops, op.method ≠ "$steps") →
      chainBuilder steps ops =
        some (steps ++ ops.map fun op => { method := op.method, args := op.args }) := by
  induction ops with
  | nil => intro steps _; simp [chainBuilder]
  | cons op rest ih =>
    intro steps h
    have hop : op.method ≠ "$steps" := h op (List.mem_cons_self op rest)
    simp only [chainBuilder, callOp_eq steps op.method op.args hop]
    rw [ih _ fun o ho => h o (List.mem_cons_of_mem op ho)]
    simp

/-- C7: evaluating an empty step sequence returns the root itself unchanged
and without error, for every root value — the evaluator's base case is an
identity pass-through, not a special case. -/
theorem empty_steps_returns_root (db : List Person) (evaluator : Dyn) :
    evaluateQuerySteps db evaluator [] = .ok evaluator := rfl

/-- C8: accessing the reserved name "$steps" on a builder returns exactly
the accumulated step sequence the builder was constructed with, and does
not append a step. -/
theorem steps_access_returns_accumulated_steps (steps : List QueryStep) :
    builderGet steps "$steps" = .steps steps := rfl

/-- C9: at runtime only "$steps" is reserved — every other property name,
"$type" included, yields a callable that appends a step of that name to the
sequence; in particular a plan carries no runtime result-type marker, and
calling the value read at "$type" appends a step named "$type". -/
theorem only_steps_is_reserved (steps : List QueryStep) (prop : String)
    (h : prop ≠ "$steps") :
    builderGet steps prop = .callable (fun args => steps ++ [{ method := prop, args := args }])
    ∧ (∀ args, callOp steps prop args = some (steps ++ [{ method := prop, args := args }]))
    ∧ (∀ args, callOp steps "$type" args =
        some (steps ++ [{ method := "$type", args := args }])) := by
  refine ⟨?_, fun args => callOp_eq steps prop args h, fun args => callOp_eq steps "$type" args (by decide)⟩
  simp only [builderGet, if_neg h]

theorem only_steps_is_reserved_witness :
    callOp [] "$type" [Arg.num 3] = some [{ method := "$type", args := [Arg.num 3] }] :=
  (only_steps_is_reserved [] "$type" (by decide)).2.1 [Arg.num 3]

/-- C3: a chain of n operation invocations made through the plan builder
produces a plan of exactly n steps, the i-th step recording the method name
and argument list of the i-th invocation, in invocation order. -/
theorem builder_records_chain (ops : List OpCall) (h : ∀ op ∈ ops, op.method ≠ "$steps") :
    ∃ steps : List QueryStep,
      chainBuilder [] ops = some steps
      ∧ steps.length = ops.length
      ∧ ∀ i : Nat, steps[i]? = (ops[i]?).map fun op => { method := op.method, args := op.args } := by
  refine ⟨ops.map fun op => { method := op.method, args := op.args }, ?_, by simp, ?_⟩
  · rw [chainBuilder_eq ops [] h]; simp
  · intro i; simp [List.getElem?_map]

theorem builder_records_chain_witness :
    chainBuilder [] [⟨"getPerson", [Arg.str "1"]⟩, ⟨"getAge", []⟩] =
      some [{ method := "getPerson", args := [Arg.str "1"] },
            { method := "getAge", args := [] }] := by
  obtain ⟨steps, h1, -, -⟩ :=
    builder_records_chain [⟨"getPerson", [Arg.str "1"]⟩, ⟨"getAge", []⟩] (by decide)
  have h2 := chainBuilder_eq [⟨"getPerson", [Arg.str "1"]⟩, ⟨"getAge", []⟩] [] (by decide)
  rw [h2]
  rfl

/-- C6: the builder is persistent.  Invoking two different operations on the
same builder value yields two independent plans, each equal to the shared
prefix (the builder's recorded steps) extended by only its own step; the
builder's own step sequence is unchanged afterwards (the reserved access
still returns it); and evaluating each plan independently against the same
root equals the direct computation for that branch: evaluate the shared
prefix, then invoke that branch's operation on the result. -/
theorem builder_is_persistent (steps : List QueryStep)
    (m1 : String) (a1 : List Arg) (m2 : String) (a2 : List Arg)
    (h1 : m1 ≠ "$steps") (h2 : m2 ≠ "$steps") :
    callOp steps m1 a1 = some (steps ++ [{ method := m1, args := a1 }])
    ∧ callOp steps m2 a2 = some (steps ++ [{ method := m2, args := a2 }])
    ∧ builderGet steps "$steps" = .steps steps
    ∧ (∀ (db : List Person) (evaluator : Dyn),
        evaluateQuerySteps db evaluator (steps ++ [{ method := m1, args := a1 }]) =
          match evaluateQuerySteps db evaluator steps with
          | .ok r => invoke db r m1 a1
          | .error e => .error e)
    ∧ (∀ (db : List Person) (evaluator : Dyn),
        evaluateQuerySteps db evaluator (steps ++ [{ method := m2, args := a2 }]) =
          match evaluateQuerySteps db evaluator steps with
          | .ok r => invoke db r m2 a2
          | .error e => .error e) := by
  refine ⟨callOp_eq steps m1 a1 h1, callOp_eq steps m2 a2 h2, rfl, ?_, ?_⟩ <;>
    · intro db d0
      rw [evaluateQuerySteps_append]
      cases evaluateQuerySteps db d0 steps with
      | ok r => apply evaluateQuerySteps_singleton
      | error e => rfl

theorem builder_is_persistent_witness :
    callOp [{ method := "getPeopleNamed", args := [Arg.str "joe"] }] "mapGetAge" [] =
      some [{ method := "getPeopleNamed", args := [Arg.str "joe"] },
            { method := "mapGetAge", args := [] }] :=
  (builder_is_persistent [{ method := "getPeopleNamed", args := [Arg.str "joe"] }]
    "mapGetAge" [] "atIndex" [Arg.num 0] (by decide) (by decide)).1

/-- One operation of the declared interfaces (`RootQuery` / `PersonQuery` /
`PeopleQuery`, lines 10-27), together with the concrete argument passed at
the call site.  This is the typed view of a call in a fluent chain. -/
inductive Op
  | getPerson (id : Arg)
  | getPeopleNamed (name : Arg)
  | getName
  | getAge
  | isOlderThan (age : Arg)
  | mapGetName
  | mapGetAge
  | mapIsOlderThan (age : Arg)
  | filterIsOlderThan (age : Arg)
  | atIndex (index : Arg)
deriving DecidableEq, Repr

/-- The builder invocation an interface operation performs: its declared
name and its argument list. -/
def Op.toCall : Op → OpCall
  | .getPerson id => ⟨"getPerson", [id]⟩
  | .getPeopleNamed name => ⟨"getPeopleNamed", [name]⟩
  | .getName => ⟨"getName", []⟩
  | .getAge => ⟨"getAge", []⟩
  | .isOlderThan age => ⟨"isOlderThan", [age]⟩
  | .mapGetName => ⟨"mapGetName", []⟩
  | .mapGetAge => ⟨"mapGetAge", []⟩
  | .mapIsOlderThan age => ⟨"mapIsOlderThan", [age]⟩
  | .filterIsOlderThan age => ⟨"filterIsOlderThan", [age]⟩
  | .atIndex index => ⟨"atIndex", [index]⟩

/-- Directly calling one operation on a value, without going through steps
or dispatch-by-string: the named evaluator-class method is applied when the
receiver is an instance of the class that declares the operation; on any
other receiver the call site has no such callable member, which at runtime
is the same TypeError as a missing method. -/
def Op.apply (db : List Person) (evaluator : Dyn) : Op → Except EvalError Dyn
  | .getPerson id =>
    match evaluator with
    | .root => RootQueryEvaluator.getPerson db (some id)
    | _ => .error (.methodNotFound "getPerson")
  | .getPeopleNamed name =>
    match evaluator with
    | .root => .ok (RootQueryEvaluator.getPeopleNamed db (some name))
    | _ => .error (.methodNotFound "getPeopleNamed")
  | .getName =>
    match evaluator with
    | .person p => .ok (.str (PersonQueryEvaluator.getName p))
    | _ => .error (.methodNotFound "getName")
  | .getAge =>
    match evaluator with
    | .person p => .ok (.num (PersonQueryEvaluator.getAge p))
    | _ => .error (.methodNotFound "getAge")
  | .isOlderThan age =>
    match evaluator with
    | .person p => .ok (.bool (PersonQueryEvaluator.isOlderThan p (some age)))
    | _ => .error (.methodNotFound "isOlderThan")
  | .mapGetName =>
    match evaluator with
    | .people ps => .ok (.strList (PeopleQueryEvaluator.mapGetName ps))
    | _ => .error (.methodNotFound "mapGetName")
  | .mapGetAge =>
    match evaluator with
    | .people ps => .ok (.numList (PeopleQueryEvaluator.mapGetAge ps))
    | _ => .error (.methodNotFound "mapGetAge")
  | .mapIsOlderThan age =>
    match evaluator with
    | .people ps => .ok (.boolList (PeopleQueryEvaluator.mapIsOlderThan ps (some age)))
    | _ => .error (.methodNotFound "mapIsOlderThan")
  | .filterIsOlderThan age =>
    match evaluator with
    | .people ps => .ok (.people (PeopleQueryEvaluator.filterIsOlderThan ps (some age)))
    | _ => .error (.methodNotFound "filterIsOlderThan")
  | .atIndex index =>
    match evaluator with
    | .people ps => PeopleQueryEvaluator.atIndex ps (some index)
    | _ => .error (.methodNotFound "atIndex")

/-- The direct nested computation `on(...(o2(o1(R))))`: apply each
operation to the result of the previous one, propagating a thrown error. -/
def Op.applyChain (db : List Person) (evaluator : Dyn) : List Op → Except EvalError Dyn
  | [] => .ok evaluator
  | op :: rest =>
    match Op.apply db evaluator op with
    | .ok next => Op.applyChain db next rest
    | .error e => .error e

theorem Op.toCall_method_ne_reserved (op : Op) : op.toCall.method ≠ "$steps" := by
  cases op <;> simp [Op.toCall]

theorem invoke_toCall (db : List Person) (d : Dyn) (op : Op) :
    invoke db d op.toCall.method op.toCall.args = Op.apply db d op := by
  cases op <;> cases d <;> simp [invoke, Op.toCall, Op.apply]

theorem evaluateQuerySteps_map_toCall (db : List Person) (ops : List Op) :
    ∀ d : Dyn,
      evaluateQuerySteps db d
          (ops.map fun op => { method := op.toCall.method, args := op.toCall.args }) =
        Op.applyChain db d ops := by
  induction ops with
  | nil => intro d; rfl
  | cons op rest ih =>
    intro d
    rw [List.map_cons, evaluateQuerySteps_cons, Op.applyChain, invoke_toCall]
    cases Op.apply db d op with
    | ok next => exact ih next
    | error e => rfl

/-- C1: chaining any sequence of interface operations through the plan
builder and replaying the resulting plan with the evaluator returns the
same value as the direct nested call of the operations on the root; and the
evaluator proceeds exactly by starting from the root and, step by step in
order, invoking the step's method with the step's args on the current value
and continuing with the result. -/
theorem builder_then_evaluate_eq_direct (db : List Person) (d0 : Dyn) (ops : List Op) :
    (∃ steps : List QueryStep,
        chainBuilder [] (ops.map Op.toCall) = some steps
        ∧ evaluateQuerySteps db d0 steps = Op.applyChain db d0 ops)
    ∧ evaluateQuerySteps db d0 [] = .ok d0
    ∧ ∀ (d : Dyn) (step : QueryStep) (rest : List QueryStep),
        evaluateQuerySteps db d (step :: rest) =
          match invoke db d step.method step.args with
          | .ok next => evaluateQuerySteps db next rest
          | .error e => .error e := by
  refine ⟨⟨ops.map fun op => { method := op.toCall.method, args := op.toCall.args }, ?_, ?_⟩,
    rfl, fun d step rest => rfl⟩
  · have h : ∀ op ∈ ops.map Op.toCall, op.method ≠ "$steps" := by
      intro o ho
      obtain ⟨op, -, rfl⟩ := List.mem_map.mp ho
      exact Op.toCall_method_ne_reserved op
    exact (chainBuilder_eq (ops.map Op.toCall) [] h).trans
      (by rw [List.nil_append, List.map_map]; rfl)
  · exact evaluateQuerySteps_map_toCall db ops d0

/-- C2: against the root evaluator over the backing data (which contains
person "1" named "joe" aged 10 and person "2" named "joe" aged 11), the
chain getPeopleNamed("joe").filterIsOlderThan(10).atIndex(0).getAge()
evaluates to 11, the chain getPerson("1").getAge() evaluates to 10, and the
chain getPerson("99").getAge() fails with the error thrown by getPerson. -/
theorem concrete_scenario_results :
    (chainBuilder [] [⟨"getPeopleNamed", [.str "joe"]⟩, ⟨"filterIsOlderThan", [.num 10]⟩,
          ⟨"atIndex", [.num 0]⟩, ⟨"getAge", []⟩]).map (evaluateQuerySteps people .root) =
        some (.ok (.num 11))
    ∧ (chainBuilder [] [⟨"getPerson", [.str "1"]⟩, ⟨"getAge", []⟩]).map
          (evaluateQuerySteps people .root) =
        some (.ok (.num 10))
    ∧ (chainBuilder [] [⟨"getPerson", [.str "99"]⟩, ⟨"getAge", []⟩]).map
          (evaluateQuerySteps people .root) =
        some (.error (.operationFailed "Could not find person: 99")) := by
  refine ⟨rfl, rfl, rfl⟩

theorem invoke_methodNotFound_iff (db : List Person) (d : Dyn) (m : String) (a : List Arg) :
    invoke db d m a = .error (.methodNotFound m) ↔ hasMethod d m = false := by
  cases d with
  | root =>
    by_cases h1 : m = "getPerson"
    · subst h1
      simp only [invoke, if_pos rfl, hasMethod]
      unfold RootQueryEvaluator.getPerson
      cases db.find? (fun person => jsStrictEqStr person.id a[0]?) <;> simp
    · by_cases h2 : m = "getPeopleNamed"
      · subst h2; simp [invoke, hasMethod]
      · simp [invoke, hasMethod, h1, h2]
  | person p =>
    by_cases h1 : m = "getName"
    · subst h1; simp [invoke, hasMethod]
    · by_cases h2 : m = "getAge"
      · subst h2; simp [invoke, hasMethod]
      · by_cases h3 : m = "isOlderThan"
        · subst h3; simp [invoke, hasMethod]
        · simp [invoke, hasMethod, h1, h2, h3]
  | people ps =>
    by_cases h1 : m = "mapGetName"
    · subst h1; simp [invoke, hasMethod]
    · by_cases h2 : m = "mapGetAge"
      · subst h2; simp [invoke, hasMethod]
      · by_cases h3 : m = "mapIsOlderThan"
        · subst h3; simp [invoke, hasMethod]
        · by_cases h4 : m = "filterIsOlderThan"
          · subst h4; simp [invoke, hasMethod]
          · by_cases h5 : m = "atIndex"
            · subst h5
              simp only [invoke, hasMethod]
              unfold PeopleQueryEvaluator.atIndex
              cases jsIndex ps a[0]? <;> simp
            · simp [invoke, hasMethod, h1, h2, h3, h4, h5]
  | str s => simp [invoke, hasMethod]
  | num n => simp [invoke, hasMethod]
  | bool b => simp [invoke, hasMethod]
  | strList l => simp [invoke, hasMethod]
  | numList l => simp [invoke, hasMethod]
  | boolList l => simp [invoke, hasMethod]

theorem invoke_methodNotFound_name (db : List Person) (d : Dyn) (m : String) (a : List Arg)
    (m' : String) (h : invoke db d m a = .error (.methodNotFound m')) : m' = m := by
  cases d with
  | root =>
    simp only [invoke] at h
    split_ifs at h with h1 h2
    · rw [RootQueryEvaluator.getPerson] at h
      cases hf : List.find? (fun person => jsStrictEqStr person.id a[0]?) db <;>
        rw [hf] at h <;> simp_all
    · simp_all
  | person p =>
    simp only [invoke] at h
    split_ifs at h
    all_goals simp_all
  | people ps =>
    simp only [invoke] at h
    split_ifs at h with h1 h2 h3 h4 h5
    · rw [PeopleQueryEvaluator.atIndex] at h
      cases hf : jsIndex ps a[0]? <;> rw [hf] at h <;> simp_all
    · simp_all
  | str s => simp only [invoke] at h; simp_all
  | num n => simp only [invoke] at h; simp_all
  | bool b => simp only [invoke] at h; simp_all
  | strList l => simp only [invoke] at h; simp_all
  | numList l => simp only [invoke] at h; simp_all
  | boolList l => simp only [invoke] at h; simp_all

/-- C4: during evaluation, a MethodNotFound failure arises exactly when the
current evaluation target exposes no operation with the step's method name
(and that failure names the step's method); and whatever error an invoked
operation raises — MethodNotFound or a domain OperationFailed — the whole
evaluation of the remaining step list returns exactly that error: nothing
is caught, no later step runs, and no partial result is produced. -/
theorem evaluator_error_contract (db : List Person) (d : Dyn) (m : String) (a : List Arg)
    (rest : List QueryStep) :
    (invoke db d m a = .error (.methodNotFound m) ↔ hasMethod d m = false)
    ∧ (∀ m', invoke db d m a = .error (.methodNotFound m') → m' = m)
    ∧ (∀ e, invoke db d m a = .error e →
        evaluateQuerySteps db d ({ method := m, args := a } :: rest) = .error e) := by
  refine ⟨invoke_methodNotFound_iff db d m a,
    fun m' h => invoke_methodNotFound_name db d m a m' h, fun e h => ?_⟩
  rw [evaluateQuerySteps_cons]
  rw [h]

theorem evaluator_error_contract_witness :
    invoke people .root "frobnicate" [] = .error (.methodNotFound "frobnicate")
    ∧ evaluateQuerySteps people .root
        [{ method := "frobnicate", args := [] }, { method := "getAge", args := [] }] =
      .error (.methodNotFound "frobnicate") := by
  have h := evaluator_error_contract people .root "frobnicate" []
    [{ method := "getAge", args := [] }]
  have h1 : invoke people .root "frobnicate" [] = .error (.methodNotFound "frobnicate") :=
    h.1.mpr (by decide)
  exact ⟨h1, h.2.2 _ h1⟩

/-- The JSON data model, the wire format used by `JSON.stringify` /
`JSON.parse` in the transport of `main` (lines 161-176); the codec's
textual layer is out of scope, so serialization is modelled to and from
this tree. -/
inductive Json
  | null
  | bool (b : Bool)
  | num (n : Int)
  | str (s : String)
  | arr (elements : List Json)
  | obj (fields : List (String × Json))

/-- Serializing one step argument (a plain value) to JSON. -/
def encodeArg : Arg → Json
  | .str s => .str s
  | .num n => .num n
  | .bool b => .bool b

/-- Reading one step argument back from JSON. -/
def decodeArg : Json → Option Arg
  | .str s => some (.str s)
  | .num n => some (.num n)
  | .bool b => some (.bool b)
  | _ => none

/-- Reading an argument array back from JSON values. -/
def decodeArgList : List Json → Option (List Arg)
  | [] => some []
  | j :: rest =>
    match decodeArg j, decodeArgList rest with
    | some a, some as => some (a :: as)
    | _, _ => none

/-- Serializing one step, `{method: ..., args: [...]}`. -/
def encodeStep (step : QueryStep) : Json :=
  .obj [("method", .str step.method), ("args", .arr (step.args.map encodeArg))]

/-- Reading one step back from JSON. -/
def decodeStep : Json → Option QueryStep
  | .obj [("method", .str m), ("args", .arr as)] =>
    (decodeArgList as).map fun args => { method := m, args := args }
  | _ => none

/-- Reading a step array back from JSON values. -/
def decodeStepList : List Json → Option (List QueryStep)
  | [] => some []
  | j :: rest =>
    match decodeStep j, decodeStepList rest with
    | some s, some ss => some (s :: ss)
    | _, _ => none

/-- Models `JSON.stringify(steps)` (line 163), at the level of the JSON tree. -/
def encodeSteps (steps : List QueryStep) : Json :=
  .arr (steps.map encodeStep)

/-- Models `JSON.parse(serializedSteps)` (line 166), at the level of the JSON tree. -/
def decodeSteps : Json → Option (List QueryStep)
  | .arr js => decodeStepList js
  | _ => none

theorem decodeArg_encodeArg (a : Arg) : decodeArg (encodeArg a) = some a := by
  cases a <;> rfl

theorem decodeArgList_map_encodeArg (args : List Arg) :
    decodeArgList (args.map encodeArg) = some args := by
  induction args with
  | nil => rfl
  | cons a rest ih => rw [List.map_cons, decodeArgList, decodeArg_encodeArg, ih]

theorem decodeStep_encodeStep (step : QueryStep) : decodeStep (encodeStep step) = some step := by
  rw [encodeStep, decodeStep, decodeArgList_map_encodeArg]
  rfl

theorem decodeStepList_map_encodeStep (steps : List QueryStep) :
    decodeStepList (steps.map encodeStep) = some steps := by
  induction steps with
  | nil => rfl
  | cons s rest ih => rw [List.map_cons, decodeStepList, decodeStep_encodeStep, ih]

/-- C5: serializing a plan's steps to the wire format and deserializing
them succeeds for every plan (all representable argument values survive the
round trip unchanged), and evaluating the deserialized steps against any
root over any backing data gives the same value as evaluating the original
steps. -/
theorem serialize_roundtrip_preserves_evaluation (db : List Person) (d : Dyn)
    (steps : List QueryStep) :
    ∃ steps' : List QueryStep,
      decodeSteps (encodeSteps steps) = some steps'
      ∧ steps' = steps
      ∧ evaluateQuerySteps db d steps' = evaluateQuerySteps db d steps := by
  refine ⟨steps, ?_, rfl, rfl⟩
  rw [encodeSteps, decodeSteps, decodeStepList_map_encodeStep]

/-- The dispatch of line 149 with the backing store threaded explicitly:
each operation returns, beside its result, the `people` array as it stands
after the call.  Every branch is the corresponding evaluator-method body
(lines 96-143), and each of those bodies only reads the data — `find`,
`filter`, `map` and indexing — and allocates new evaluator values, so each
branch hands the store back as it received it. -/
def invokeSt (db : List Person) (evaluator : Dyn) (method : String) (args : List Arg) :
    (Except EvalError Dyn) × List Person :=
  match evaluator with
  | .root =>
    if method = "getPerson" then
      match db.find? (fun person => jsStrictEqStr person.id args[0]?) with
      | some person => (.ok (.person person), db)
      | none => (.error (.operationFailed ("Could not find person: " ++ argDisplay args[0]?)), db)
    else if method = "getPeopleNamed" then
      (.ok (.people (db.filter fun person => jsStrictEqStr person.name args[0]?)), db)
    else (.error (.methodNotFound method), db)
  | .person p =>
    if method = "getName" then (.ok (.str p.name), db)
    else if method = "getAge" then (.ok (.num p.age), db)
    else if method = "isOlderThan" then (.ok (.bool (jsGt p.age args[0]?)), db)
    else (.error (.methodNotFound method), db)
  | .people ps =>
    if method = "mapGetName" then (.ok (.strList (ps.map fun person => person.name)), db)
    else if method = "mapGetAge" then (.ok (.numList (ps.map fun person => person.age)), db)
    else if method = "mapIsOlderThan" then
      (.ok (.boolList (ps.map fun person => jsGt person.age args[0]?)), db)
    else if method = "filterIsOlderThan" then
      (.ok (.people (ps.filter fun person => jsGt person.age args[0]?)), db)
    else if method = "atIndex" then
      match jsIndex ps args[0]? with
      | some person => (.ok (.person person), db)
      | none => (.error (.operationFailed ("No person at index: " ++ argDisplay args[0]?)), db)
    else (.error (.methodNotFound method), db)
  | _ => (.error (.methodNotFound method), db)

/-- The loop of `evaluateQuerySteps` (lines 146-152) with the backing store
threaded through every step; a thrown error stops the loop and returns the
store as it stands at the failure point. -/
def evaluateQueryStepsSt (db : List Person) (evaluator : Dyn) :
    List QueryStep → (Except EvalError Dyn) × List Person
  | [] => (.ok evaluator, db)
  | step :: rest =>
    match invokeSt db evaluator step.method step.args with
    | (.ok next, db') => evaluateQueryStepsSt db' next rest
    | (.error e, db') => (.error e, db')

theorem invokeSt_eq (db : List Person) (d : Dyn) (m : String) (a : List Arg) :
    invokeSt db d m a = (invoke db d m a, db) := by
  cases d with
  | root =>
    simp only [invokeSt, invoke, RootQueryEvaluator.getPerson, RootQueryEvaluator.getPeopleNamed]
    split_ifs
    · cases db.find? (fun person => jsStrictEqStr person.id a[0]?) <;> rfl
    · rfl
    · rfl
  | person p =>
    simp only [invokeSt, invoke, PersonQueryEvaluator.getName, PersonQueryEvaluator.getAge,
      PersonQueryEvaluator.isOlderThan]
    split_ifs <;> rfl
  | people ps =>
    simp only [invokeSt, invoke, PeopleQueryEvaluator.mapGetName, PeopleQueryEvaluator.mapGetAge,
      PeopleQueryEvaluator.mapIsOlderThan, PeopleQueryEvaluator.filterIsOlderThan,
      PeopleQueryEvaluator.atIndex]
    split_ifs
    · rfl
    · rfl
    · rfl
    · rfl
    · cases jsIndex ps a[0]? <;> rfl
    · rfl
  | str s => rfl
  | num n => rfl
  | bool b => rfl
  | strList l => rfl
  | numList l => rfl
  | boolList l => rfl

/-- C10: evaluation is read-only over the backing state.  For every step
sequence, whether the run succeeds or fails partway, the store-threaded
evaluation returns the backing people array (and hence every Person record
in it) exactly as it received it, and its result component agrees with the
pure evaluator. -/
theorem evaluation_preserves_backing_state (db : List Person) (d : Dyn)
    (steps : List QueryStep) :
    (evaluateQueryStepsSt db d steps).2 = db
    ∧ (evaluateQueryStepsSt db d steps).1 = evaluateQuerySteps db d steps := by
  induction steps generalizing d with
  | nil => exact ⟨rfl, rfl⟩
  | cons step rest ih =>
    rw [evaluateQueryStepsSt, evaluateQuerySteps_cons, invokeSt_eq]
    cases invoke db d step.method step.args with
    | ok next => exact ih next
    | error e => exact ⟨rfl, rfl⟩
